import Mathlib

/-!
Verification of the MSGFPlusAdapter conversion core (src/topp/MSGFPlusAdapter.cpp).

Strings are embedded as `List Char`; the four sequence-rewriting passes
(`cutSequence`, `fixDecimalSeparator`, `modifyNTermAASpecificSequence`,
`modifySequence`), the per-row aggregation loop of `main_` and the final
assembly of protein/peptide identification lists are translated below.
`std::map<int, PeptideIdentification>` is embedded as an association list kept
sorted by key (its iteration order), `std::set<String>` as a list kept sorted
by byte-wise lexicographic string order, and `float`/`double` values as `ℚ`.
OpenMS library helpers that are not part of this file (`String::suffix`,
`String::toInt`, `PeptideHit::addProteinAccession`, `PeptideIdentification::sort`)
are modelled from the spec where noted.
-/

/-- The character class "ABCDEFGHIJKLMNOPQRSTUVWXYZ" used by
`find_first_of` in the rewriter, as a range test. -/
def isUpperAZ (c : Char) : Bool := 'A' ≤ c && c ≤ 'Z'

/-- `std::string::find_first_of` over a predicate describing the character
class: index of the first character satisfying `p`, `none` for `npos`. -/
def findFirstIdx (p : Char → Bool) : List Char → Option Nat
  | [] => none
  | c :: cs => if p c then some 0 else (findFirstIdx p cs).map (· + 1)

/-- `std::string::find_last_of` over a predicate: index of the last character
satisfying `p`, `none` for `npos`. -/
def findLastIdx (p : Char → Bool) : List Char → Option Nat
  | [] => none
  | c :: cs =>
    match findLastIdx p cs with
    | some i => some (i + 1)
    | none => if p c then some 0 else none

/-- `std::string::find(pat)`: index of the first occurrence of `pat` as a
contiguous substring, `none` for `npos`. -/
def findSubstr (pat : List Char) : List Char → Option Nat
  | [] => if pat.isPrefixOf ([] : List Char) then some 0 else none
  | c :: cs =>
    if pat.isPrefixOf (c :: cs) then some 0
    else (findSubstr pat cs).map (· + 1)

/-- Pass 1 of the rewriter, `cutSequence` (MSGFPlusAdapter.cpp:176-191):
find the first and last `.`; if both exist at distinct positions return
`sequence.substr(findFirst+1, findLast-2)`, else return the input.
The second `substr` argument is a `size_t` LENGTH; for `findLast < 2` the
subtraction wraps to a huge value, which `substr` clamps to the remainder
of the string. -/
def cutSequence (s : List Char) : List Char :=
  match findFirstIdx (fun c => c = '.') s, findLastIdx (fun c => c = '.') s with
  | some f, some l =>
    if f ≠ l then (s.drop (f + 1)).take (if 2 ≤ l then l - 2 else s.length)
    else s
  | _, _ => s

/-- Pass 2, `fixDecimalSeparator` (MSGFPlusAdapter.cpp:195-204): the loop
overwrites every character of the class `.,` with `'.'` (positions do not
shift), i.e. it maps each `,` or `.` occurrence to `'.'`. -/
def fixDecimalSeparator (s : List Char) : List Char :=
  s.map (fun c => if c = '.' ∨ c = ',' then '.' else c)

/-- One iteration of the `massShiftList` loop in
`modifyNTermAASpecificSequence` (MSGFPlusAdapter.cpp:214-233) for the pair
`(tok, res)`: `some` result when the early `return` inside the branch fires,
`none` when the loop moves on to the next pair. When `tmp` contains no
uppercase letter the C++ compares `npos > found` (true) and then reads
`tmp[npos]` out of bounds; that unreachable-in-practice read is modelled as
taking the next loop iteration. -/
def modNTermStep (s : List Char) (tok : List Char) (res : Char) : Option (List Char) :=
  match findSubstr tok s with
  | none => none
  | some found =>
    let tmp := s.take (found + tok.length + 1)
    match findFirstIdx isUpperAZ tmp with
    | none => none
    | some foundAA =>
      if found < foundAA ∧ tmp[foundAA]? = some res then
        some (s.take found ++ tmp.getLastD ' ' :: (tok ++ s.drop (found + tok.length + 1)))
      else none

/-- Pass 3, `modifyNTermAASpecificSequence` (MSGFPlusAdapter.cpp:206-235):
try the mass-shift token `-18.011` with residue `E`, then `-17.027` with
residue `Q`; the first firing branch returns, otherwise the input is
returned unchanged. -/
def modifyNTermAASpecificSequence (s : List Char) : List Char :=
  match modNTermStep s ("-18.011".data) 'E' with
  | some r => r
  | none =>
    match modNTermStep s ("-17.027".data) 'Q' with
    | some r => r
    | none => s

mutual

/-- Pass 4, `modifySequence` (MSGFPlusAdapter.cpp:240-260), scanning state
outside a bracketed segment.  The C++ loop cursor only ever moves to the
right and never re-scans an inserted bracket: a `+`/`-` sign opens `[`
immediately before itself, after which scanning is inside the segment. -/
def msOut : List Char → List Char
  | [] => []
  | c :: cs => if c = '+' ∨ c = '-' then '[' :: c :: msIn cs else c :: msOut cs

/-- `modifySequence` scanning state inside a bracketed segment: the next
uppercase letter closes the segment with `]` inserted before it
(`find_first_of(letters)` then `insert`), and scanning resumes outside
after that letter (`find_first_of("+-", found1+2)`); at the end of the
string `]` is appended (`modifiedSequence + "]"`). -/
def msIn : List Char → List Char
  | [] => [']']
  | c :: cs => if isUpperAZ c then ']' :: c :: msOut cs else c :: msIn cs

end

/-- `modifySequence` (MSGFPlusAdapter.cpp:240-260). -/
def modifySequence (s : List Char) : List Char := msOut s

/-- The four-pass rewrite applied to `elements[8]` (MSGFPlusAdapter.cpp:505). -/
def rewriteSequence (s : List Char) : List Char :=
  modifySequence (modifyNTermAASpecificSequence (fixDecimalSeparator (cutSequence s)))

/-- One row of the TSV result table, restricted to the columns the loop in
`main_` reads (MSGFPlusAdapter.cpp:487-545): `elements[1]` (spectrum
title), `elements[2]` (scan-number field), `elements[7]` (charge),
`elements[8]` (raw flanked sequence), `elements[9]` (protein accession),
`elements[12]` (SpecEValue score).  The charge and score fields only feed
the stored hit; their numeric conversion (`toInt`/`toDouble`, library code)
is kept outside the embedding, so the row carries the parsed values. -/
structure ResultRow where
  title : List Char
  scanField : List Char
  charge : Int
  rawSeq : List Char
  protAccession : List Char
  score : ℚ
deriving DecidableEq

/-- `OpenMS::PeptideHit` as used here: score, rank, charge, the annotated
sequence (an `AASequence` is identified with the rewritten string it was
parsed from) and the accession list in insertion order. -/
structure PeptideHit where
  score : ℚ
  rank : Nat
  charge : Int
  sequence : List Char
  proteinAccessions : List (List Char)
deriving DecidableEq

/-- Modelled from the spec: `PeptideHit::addProteinAccession` (OpenMS
library, not under src/) — "accession insertion is idempotent (a given
accession appears at most once per hit even if contributed by multiple
rows)"; an absent accession is appended. -/
def addProteinAccession (h : PeptideHit) (acc : List Char) : PeptideHit :=
  if acc ∈ h.proteinAccessions then h
  else { h with proteinAccessions := h.proteinAccessions ++ [acc] }

/-- `OpenMS::PeptideIdentification` as populated by `main_`
(MSGFPlusAdapter.cpp:520-544): RT, m/z, the ScanNumber meta value, the
constant score type, the higher-score-better flag, the run identifier and
the hit list. -/
structure PeptideIdentification where
  rt : ℚ
  mz : ℚ
  scanNumber : Int
  scoreType : List Char
  higherScoreBetter : Bool
  identifier : List Char
  hits : List PeptideHit
deriving DecidableEq

/-- The aggregation state owned by the row loop:
`map<int, PeptideIdentification> peptide_identifications` as an association
list sorted ascending by key (the `std::map` iteration order) and
`set<String> prot_accessions` as a lexicographically sorted duplicate-free
list (the `std::set` iteration order) (MSGFPlusAdapter.cpp:477-478). -/
structure AggState where
  pepIds : List (Int × PeptideIdentification)
  protAccessions : List (List Char)
deriving DecidableEq

/-- Both containers start empty. -/
def initState : AggState := ⟨[], []⟩

/-- `std::map::find`: the value stored under key `n`, if any. -/
def lookupPep (n : Int) : List (Int × PeptideIdentification) → Option PeptideIdentification
  | [] => none
  | (k, v) :: rest => if n = k then some v else lookupPep n rest

/-- `peptide_identifications[n] = v`: ordered update-or-insert, preserving
the ascending key order of the `std::map`. -/
def setPep (n : Int) (v : PeptideIdentification) :
    List (Int × PeptideIdentification) → List (Int × PeptideIdentification)
  | [] => [(n, v)]
  | (k, w) :: rest =>
    if n = k then (n, v) :: rest
    else if n < k then (n, v) :: (k, w) :: rest
    else (k, w) :: setPep n v rest

/-- `prot_accessions.insert(acc)` (guarded by the `find` check at
MSGFPlusAdapter.cpp:509-512): ordered duplicate-free insertion into the
`std::set<String>`, whose iteration order is `std::string::operator<` —
the byte-wise lexicographic order `<` on `List Char`
(MSGFPlusAdapter.cpp:548). -/
def insertAcc (a : List Char) : List (List Char) → List (List Char)
  | [] => [a]
  | b :: bs =>
    if a < b then a :: b :: bs
    else if a = b then b :: bs
    else b :: insertAcc a bs

/-- `rt_mapping[key]` on the `Map<String, vector<float>>` built by
`generateInputfileMapping`: the stored `vector<float>`, where a missing key
default-constructs an empty vector (`std::map::operator[]`). -/
def lookupRT (idx : List (List Char × List ℚ)) (key : List Char) : List ℚ :=
  match idx with
  | [] => []
  | (k, v) :: rest => if key = k then v else lookupRT rest key

/-- The failure modes of one row-ingestion step: the conversion error
thrown when a scan number cannot be parsed, and the out-of-bounds
`vector<float>::operator[]` read performed on a spectrum-index miss
(`rt_mapping[spec_id][0]` / `[1]` on a too-short entry). -/
inductive RowError where
  | unparseableScanNumber
  | rtIndexOutOfBounds
deriving DecidableEq

/-- Modelled from the spec: `OpenMS::String::suffix('=')` (library code,
not under src/) — the substring after the last occurrence of the
delimiter; the library throws an element-not-found error when the
delimiter is absent, modelled as `none`. -/
def suffixAfterLast (delim : Char) : List Char → Option (List Char)
  | [] => none
  | c :: cs =>
    match suffixAfterLast delim cs with
    | some r => some r
    | none => if c = delim then some cs else none

/-- A non-empty all-digit string read as a decimal number. -/
def parseDigits? (ds : List Char) : Option Nat :=
  if ds = [] then none
  else if ds.all (fun c => '0' ≤ c && c ≤ '9') then
    some (ds.foldl (fun n c => 10 * n + (c.toNat - '0'.toNat)) 0)
  else none

/-- Modelled from the spec: `OpenMS::String::toInt` (library code, not
under src/) — parses an optionally signed decimal integer, failing
("unparseable scan number") on any other content. -/
def toInt? : List Char → Option Int
  | [] => none
  | '-' :: ds => (parseDigits? ds).map (fun n => -(n : Int))
  | '+' :: ds => (parseDigits? ds).map (fun n => (n : Int))
  | ds => (parseDigits? ds).map (fun n => (n : Int))

/-- Scan-number determination for one row (MSGFPlusAdapter.cpp:496-503):
an empty or `-1` scan-number field falls back to the integer suffix of the
spectrum title after its last `=`; otherwise the field itself is parsed.
A failed conversion surfaces as `unparseableScanNumber`. -/
def parseScanNumber (title scanField : List Char) : Except RowError Int :=
  if scanField = [] ∨ scanField = "-1".data then
    match (suffixAfterLast '=' title).bind toInt? with
    | some n => Except.ok n
    | none => Except.error RowError.unparseableScanNumber
  else
    match toInt? scanField with
    | some n => Except.ok n
    | none => Except.error RowError.unparseableScanNumber

/-- One iteration of the row loop of `main_` (MSGFPlusAdapter.cpp:487-545):
determine the scan number, rewrite the sequence, record the protein
accession into the evidence set, then either create the identification for
a new scan number (reading RT and m/z from the spectrum index entry for the
title — elements 0 and 1 of the stored vector, an out-of-bounds read when
the entry is missing or too short) or merge the accession into every
existing hit of that scan carrying the same annotated sequence. -/
def ingest (ident : List Char) (rtIndex : List (List Char × List ℚ))
    (st : AggState) (row : ResultRow) : Except RowError AggState :=
  match parseScanNumber row.title row.scanField with
  | Except.error e => Except.error e
  | Except.ok scanNumber =>
    let sequence := rewriteSequence row.rawSeq
    let accs := insertAcc row.protAccession st.protAccessions
    match lookupPep scanNumber st.pepIds with
    | none =>
      let hit : PeptideHit :=
        { score := row.score, rank := 0, charge := row.charge,
          sequence := sequence, proteinAccessions := [row.protAccession] }
      let entry := lookupRT rtIndex row.title
      match entry.get? 0, entry.get? 1 with
      | some rtv, some mzv =>
        let pi : PeptideIdentification :=
          { rt := rtv, mz := mzv, scanNumber := scanNumber,
            scoreType := "SpecEValue".data, higherScoreBetter := false,
            identifier := ident, hits := [hit] }
        Except.ok { pepIds := setPep scanNumber pi st.pepIds, protAccessions := accs }
      | _, _ => Except.error RowError.rtIndexOutOfBounds
    | some pi =>
      let hits := pi.hits.map
        (fun h => if h.sequence = sequence then addProteinAccession h row.protAccession else h)
      Except.ok { pepIds := setPep scanNumber { pi with hits := hits } st.pepIds,
                  protAccessions := accs }

/-- The whole row loop, rows in file order, from the empty state. -/
def runRows (ident : List Char) (rtIndex : List (List Char × List ℚ))
    (rows : List ResultRow) : Except RowError AggState :=
  rows.foldlM (ingest ident rtIndex) initState

/-- An output protein hit carries only its accession
(MSGFPlusAdapter.cpp:550-552). -/
structure ProteinHit where
  accession : List Char
deriving DecidableEq

/-- The assembled output: the protein-hit list of the single run-level
protein identification, and the ordered peptide-identification list. -/
structure FinalOutput where
  proteinHits : List ProteinHit
  peptideIds : List PeptideIdentification
deriving DecidableEq

/-- Ordered insertion for the hit sort: ascending by score. -/
def insertHitByScore (h : PeptideHit) : List PeptideHit → List PeptideHit
  | [] => [h]
  | g :: gs => if h.score ≤ g.score then h :: g :: gs else g :: insertHitByScore h gs

/-- Modelled from the spec: `PeptideIdentification::sort` (library code,
not under src/) — "sorts each SpectrumIdentification's hits by score
(ascending, since lower is better for this score type)". -/
def sortHits : List PeptideHit → List PeptideHit
  | [] => []
  | h :: hs => insertHitByScore h (sortHits hs)

/-- Final assembly (MSGFPlusAdapter.cpp:547-567): one protein hit per
accession in `std::set` iteration order, and the peptide identifications in
`std::map` iteration order, each with its hits sorted (`pep.sort()`). -/
def finalize (st : AggState) : FinalOutput :=
  { proteinHits := st.protAccessions.map (fun a => { accession := a }),
    peptideIds := st.pepIds.map (fun p => { p.2 with hits := sortHits p.2.hits }) }

/-- Output well-formedness for the bracketing pass: every `[` is
immediately followed by a `+` or `-` sign (in particular no `[` is last). -/
def okBrackets : List Char → Bool
  | [] => true
  | c :: rest =>
    if c = '[' then
      match rest with
      | [] => false
      | d :: _ => (d = '+' ∨ d = '-') && okBrackets rest
    else okBrackets rest

/-- Spectrum index used by concrete test instances: two MS2 spectra with
native ids `t3` and `t5`, each contributing one (RT, m/z) pair. -/
def exIdx : List (List Char × List ℚ) := [("t3".data, [30, 300]), ("t5".data, [100, 500])]

/-- A table row for scan 5 of spectrum `t5`. -/
def exRow5 : ResultRow := ⟨"t5".data, "5".data, 2, "K.AAAA.R".data, "P1".data, 1⟩

/-- A table row for scan 3 of spectrum `t3`, appearing after `exRow5`. -/
def exRow3 : ResultRow := ⟨"t3".data, "3".data, 2, "K.CCCC.R".data, "P0".data, 2⟩

/-- A table row whose spectrum title is absent from the index and whose
scan number comes from the title suffix. -/
def exRowMiss : ResultRow := ⟨"spec scan=7".data, [], 2, "K.AAAA.R".data, "P1".data, 1⟩

/-- A second row for scan 5 (scan number derived from the title suffix)
with the same raw sequence but a different protein accession. -/
def exRowP2 : ResultRow := ⟨"x scan=5".data, [], 3, "K.AAAA.R".data, "P2".data, 1⟩

/-- A row whose scan number is unparseable: the scan field is not an
integer and the title has no `=` suffix. -/
def exRowBad : ResultRow := ⟨"x".data, "abc".data, 2, "K.AAAA.R".data, "P9".data, 1⟩

/-- The state of a successful run (used to evaluate run-level theorems at
concrete inputs); a failed run is mapped to the empty state. -/
def runOk (r : Except RowError AggState) : AggState :=
  match r with
  | Except.ok st => st
  | Except.error _ => initState

theorem findFirstIdx_eq_none {p : Char → Bool} {l : List Char}
    (h : ∀ c ∈ l, p c = false) : findFirstIdx p l = none := by
  induction l with
  | nil => rfl
  | cons c cs ih =>
    have hc : p c = false := h c (by simp)
    have ht : findFirstIdx p cs = none := ih (fun d hd => h d (by simp [hd]))
    simp [findFirstIdx, hc, ht]

theorem findLastIdx_eq_none {p : Char → Bool} {l : List Char}
    (h : ∀ c ∈ l, p c = false) : findLastIdx p l = none := by
  induction l with
  | nil => rfl
  | cons c cs ih =>
    have hc : p c = false := h c (by simp)
    have ht : findLastIdx p cs = none := ih (fun d hd => h d (by simp [hd]))
    simp [findLastIdx, hc, ht]

theorem findFirstIdx_append {p : Char → Bool} {a : List Char} (l : List Char)
    (ha : ∀ c ∈ a, p c = false) :
    findFirstIdx p (a ++ l) = (findFirstIdx p l).map (· + a.length) := by
  induction a with
  | nil => cases h : findFirstIdx p l <;> simp [h]
  | cons c cs ih =>
    have hc : p c = false := ha c (by simp)
    have hih := ih (fun d hd => ha d (by simp [hd]))
    cases h : findFirstIdx p l <;>
      simp [findFirstIdx, hc, hih, h, Nat.add_assoc]

theorem findLastIdx_append (p : Char → Bool) (a l : List Char) :
    findLastIdx p (a ++ l) =
      match findLastIdx p l with
      | some i => some (a.length + i)
      | none => findLastIdx p a := by
  induction a with
  | nil => cases h : findLastIdx p l <;> simp [h, findLastIdx]
  | cons c cs ih =>
    cases h : findLastIdx p l with
    | some i =>
      have h2 : findLastIdx p (cs ++ l) = some (cs.length + i) := by
        rw [ih, h]
      simp [findLastIdx, h2, Nat.add_assoc, Nat.add_comm, Nat.add_left_comm]
    | none =>
      have h2 : findLastIdx p (cs ++ l) = findLastIdx p cs := by
        rw [ih, h]
      simp only [List.cons_append, findLastIdx, List.append_eq, h2]

theorem cutSequence_no_dot {s : List Char} (h : '.' ∉ s) : cutSequence s = s := by
  have : findFirstIdx (fun c => c = '.') s = none :=
    findFirstIdx_eq_none (fun c hc => by
      simp only [decide_eq_false_iff_not]
      exact fun hd => h (hd ▸ hc))
  simp [cutSequence, this]

theorem cutSequence_single_dot {a b : List Char} (ha : '.' ∉ a) (hb : '.' ∉ b) :
    cutSequence (a ++ '.' :: b) = a ++ '.' :: b := by
  have hpa : ∀ c ∈ a, (fun c => decide (c = '.')) c = false := fun c hc => by
    simp only [decide_eq_false_iff_not]
    exact fun hd => ha (hd ▸ hc)
  have hpb : ∀ c ∈ b, (fun c => decide (c = '.')) c = false := fun c hc => by
    simp only [decide_eq_false_iff_not]
    exact fun hd => hb (hd ▸ hc)
  have hf : findFirstIdx (fun c => c = '.') (a ++ '.' :: b) = some a.length := by
    rw [findFirstIdx_append _ hpa]
    simp [findFirstIdx]
  have hl : findLastIdx (fun c => c = '.') (a ++ '.' :: b) = some a.length := by
    rw [findLastIdx_append]
    simp [findLastIdx, findLastIdx_eq_none hpb]
  simp [cutSequence, hf, hl]

theorem cutSequence_canonical {x : Char} {mid b : List Char}
    (hx : x ≠ '.') (hb : '.' ∉ b) :
    cutSequence (x :: '.' :: (mid ++ '.' :: b)) = mid := by
  have hpb : ∀ c ∈ b, (fun c => decide (c = '.')) c = false := fun c hc => by
    simp only [decide_eq_false_iff_not]
    exact fun hd => hb (hd ▸ hc)
  have hf : findFirstIdx (fun c => c = '.') (x :: '.' :: (mid ++ '.' :: b)) = some 1 := by
    simp [findFirstIdx, hx]
  have hl : findLastIdx (fun c => c = '.') (x :: '.' :: (mid ++ '.' :: b)) =
      some (mid.length + 2) := by
    have he : x :: '.' :: (mid ++ '.' :: b) = (x :: '.' :: mid) ++ '.' :: b := by simp
    rw [he, findLastIdx_append]
    simp [findLastIdx, findLastIdx_eq_none hpb]
  simp only [cutSequence, hf, hl]
  rw [if_pos (by omega : (1 : Nat) ≠ mid.length + 2)]
  rw [if_pos (by omega : 2 ≤ mid.length + 2)]
  simp [List.take_left]

/-- C3 counterexample: on `K.AAAA.R` the code returns the full inner
sequence `AAAA` (the second `substr` argument is a length), not the
claim's cut that additionally drops the final character before the last
separator (`AAA`, or `AA` on the end-index reading of `[first+1, last-2)`). -/
theorem cutSequence_claim_counterexample :
    cutSequence ("K.AAAA.R".data) = "AAAA".data ∧
    "AAAA".data ≠ "AAA".data ∧ "AAAA".data ≠ "AA".data := by
  exact ⟨by decide, by decide, by decide⟩

/-- C3 (amended): for a canonical flanked input `x.SEQ.y` with a
single-character left flank and no further `.` after the inner `.`,
`cutSequence` returns exactly the inner sequence between the two
separators — `substr(first+1, last-2)` takes a length, so no character is
excluded; an input without a `.`, or with a single `.`, is returned
unchanged. -/
theorem cutSequence_flank_strip_amended :
    (∀ (x : Char) (mid b : List Char), x ≠ '.' → '.' ∉ mid → '.' ∉ b →
        cutSequence (x :: '.' :: (mid ++ '.' :: b)) = mid) ∧
    (∀ s : List Char, '.' ∉ s → cutSequence s = s) ∧
    (∀ a b : List Char, '.' ∉ a → '.' ∉ b → cutSequence (a ++ '.' :: b) = a ++ '.' :: b) :=
  ⟨fun _ _ _ hx _ hb => cutSequence_canonical hx hb,
   fun _ h => cutSequence_no_dot h,
   fun _ _ ha hb => cutSequence_single_dot ha hb⟩

/-- C3 witness: the amended theorem applied to `R.PEPTIDE.K`, to a string
without separators and to a string with a single separator. -/
theorem cutSequence_flank_strip_amended_witness :
    cutSequence ('R' :: '.' :: ("PEPTIDE".data ++ '.' :: "K".data)) = "PEPTIDE".data ∧
    cutSequence ("GGG".data) = "GGG".data ∧
    cutSequence ("AB".data ++ '.' :: "CD".data) = "AB".data ++ '.' :: "CD".data :=
  ⟨cutSequence_flank_strip_amended.1 'R' ("PEPTIDE".data) ("K".data)
      (by decide) (by decide) (by decide),
   cutSequence_flank_strip_amended.2.1 ("GGG".data) (by decide),
   cutSequence_flank_strip_amended.2.2 ("AB".data) ("CD".data) (by decide) (by decide)⟩

theorem fixDecimalSeparator_id : ∀ {s : List Char},
    '.' ∉ s → ',' ∉ s → fixDecimalSeparator s = s := by
  intro s
  induction s with
  | nil => intro _ _; rfl
  | cons c cs ih =>
    intro h1 h2
    have hc : ¬(c = '.' ∨ c = ',') := by
      rintro (rfl | rfl)
      · exact h1 (by simp)
      · exact h2 (by simp)
    have ht := ih (fun hd => h1 (by simp [hd])) (fun hd => h2 (by simp [hd]))
    simp only [fixDecimalSeparator, List.map_cons, if_neg hc]
    exact congrArg (c :: ·) ht

theorem msOut_id : ∀ {s : List Char}, '+' ∉ s → '-' ∉ s → msOut s = s := by
  intro s
  induction s with
  | nil => intro _ _; rfl
  | cons c cs ih =>
    intro h1 h2
    have hc : ¬(c = '+' ∨ c = '-') := by
      rintro (rfl | rfl)
      · exact h1 (by simp)
      · exact h2 (by simp)
    have ht := ih (fun hd => h1 (by simp [hd])) (fun hd => h2 (by simp [hd]))
    simp only [msOut, if_neg hc]
    exact congrArg (c :: ·) ht

theorem findSubstr_of_prefix {pat s : List Char} (hp : pat.isPrefixOf s = true) :
    findSubstr pat s = some 0 := by
  cases s with
  | nil => simp [findSubstr, hp]
  | cons c cs => simp [findSubstr, hp]

theorem findSubstr_none_of_not_mem {pat s : List Char} {c : Char}
    (hc : c ∈ pat) (hs : c ∉ s) : findSubstr pat s = none := by
  induction s with
  | nil =>
    cases pat with
    | nil => exact absurd hc (by simp)
    | cons p ps => simp [findSubstr, List.isPrefixOf]
  | cons d ds ih =>
    have hnp : ¬pat.isPrefixOf (d :: ds) = true := fun hp =>
      hs (((List.isPrefixOf_iff_prefix.mp hp).subset) hc)
    have ht := ih (fun hd => hs (by simp [hd]))
    simp [findSubstr, hnp, ht]

theorem modifyNTerm_id {s : List Char} (h : '-' ∉ s) :
    modifyNTermAASpecificSequence s = s := by
  have h1 : findSubstr ("-18.011".data) s = none :=
    findSubstr_none_of_not_mem (by decide) h
  have h2 : findSubstr ("-17.027".data) s = none :=
    findSubstr_none_of_not_mem (by decide) h
  simp [modifyNTermAASpecificSequence, modNTermStep, h1, h2]

/-- C9 counterexample: `A,B` contains no `+`, `-` or `.`, yet the four-pass
pipeline rewrites its comma, returning `A.B`. -/
theorem rewrite_pipeline_counterexample :
    rewriteSequence ("A,B".data) = "A.B".data ∧
    '+' ∉ "A,B".data ∧ '-' ∉ "A,B".data ∧ '.' ∉ "A,B".data ∧
    "A.B".data ≠ "A,B".data := by
  exact ⟨by decide, by decide, by decide, by decide, by decide⟩

/-- C9 (amended): the four-pass rewrite pipeline returns every input that
contains no `+`, no `-`, no `.` and additionally no `,` unchanged (the
comma must be excluded because `fixDecimalSeparator` rewrites it). -/
theorem rewrite_pipeline_identity_amended :
    ∀ s : List Char, '+' ∉ s → '-' ∉ s → '.' ∉ s → ',' ∉ s →
      rewriteSequence s = s := by
  intro s hp hm hd hc
  unfold rewriteSequence modifySequence
  rw [cutSequence_no_dot hd, fixDecimalSeparator_id hd hc, modifyNTerm_id hm]
  exact msOut_id hp hm

/-- C9 witness: the amended identity evaluated on `PEPTIDE`. -/
theorem rewrite_pipeline_identity_witness :
    rewriteSequence ("PEPTIDE".data) = "PEPTIDE".data :=
  rewrite_pipeline_identity_amended ("PEPTIDE".data)
    (by decide) (by decide) (by decide) (by decide)

/-- C1 (code bug): for a row whose spectrum title is absent from the
retention-time/mass index (here: the empty index produced by an empty
input path) and whose scan number is new, the aggregation step evaluates
`rt_mapping[spec_id][0]` — element 0 of the default-constructed empty
vector, an out-of-bounds access — instead of producing a sentinel or a
missing-precursor error. -/
theorem ingest_rt_index_miss_out_of_bounds :
    ingest ("MS-GF+_2014-1-1".data) [] initState exRowMiss =
      Except.error RowError.rtIndexOutOfBounds := rfl

theorem findFirstIdx_take {p : Char → Bool} :
    ∀ {s : List Char} {j n : Nat}, findFirstIdx p s = some j → j < n →
      findFirstIdx p (s.take n) = some j := by
  intro s
  induction s with
  | nil => intro j n h _; simp [findFirstIdx] at h
  | cons c cs ih =>
    intro j n h hj
    cases n with
    | zero => omega
    | succ m =>
      by_cases hc : p c = true
      · simp [findFirstIdx, hc] at h
        simp [List.take_succ_cons, findFirstIdx, hc, h]
      · simp only [findFirstIdx, hc, Bool.false_eq_true, if_false, Option.map_eq_some'] at h
        obtain ⟨j1, hj1, rfl⟩ := h
        have := ih hj1 (by omega : j1 < m)
        simp [List.take_succ_cons, findFirstIdx, hc, this]

theorem modNTermStep_start {tok : List Char} {res : Char} (rest : List Char)
    (hne : tok ≠ []) (htokAZ : ∀ c ∈ tok, isUpperAZ c = false)
    (hres : isUpperAZ res = true) :
    modNTermStep (tok ++ res :: rest) tok res = some (res :: (tok ++ rest)) := by
  have hfind : findSubstr tok (tok ++ res :: rest) = some 0 :=
    findSubstr_of_prefix (List.isPrefixOf_iff_prefix.mpr (List.prefix_append tok _))
  have htake : (tok ++ res :: rest).take (0 + tok.length + 1) = tok ++ [res] := by
    rw [List.take_append_eq_append_take]
    rw [List.take_of_length_le (by omega)]
    congr 1
    have : 0 + tok.length + 1 - tok.length = 1 := by omega
    rw [this]
    rfl
  have hfa : findFirstIdx isUpperAZ (tok ++ [res]) = some tok.length := by
    rw [findFirstIdx_append _ htokAZ]
    simp [findFirstIdx, hres]
  have hget : (tok ++ [res])[tok.length]? = some res := by
    rw [List.getElem?_append_right (le_refl _)]
    simp
  have hlast : (tok ++ [res]).getLastD ' ' = res := List.getLastD_concat _ _ _
  have hdrop : (tok ++ res :: rest).drop (0 + tok.length + 1) = rest := by
    rw [List.drop_append_eq_append_drop]
    rw [List.drop_of_length_le (by omega)]
    have : 0 + tok.length + 1 - tok.length = 1 := by omega
    rw [this]
    rfl
  have hpos : 0 < tok.length := List.length_pos.mpr hne
  simp only [modNTermStep, hfind, htake, hfa, hget, hlast, hdrop]
  rw [if_pos ⟨hpos, trivial⟩]
  simp

theorem modNTermStep_letter_before {s tok : List Char} {res : Char} {f j : Nat}
    (hf : findSubstr tok s = some f) (hj : findFirstIdx isUpperAZ s = some j)
    (hjf : j < f) : modNTermStep s tok res = none := by
  have ht : findFirstIdx isUpperAZ (s.take (f + tok.length + 1)) = some j :=
    findFirstIdx_take hj (by omega)
  simp only [modNTermStep, hf, ht]
  rw [if_neg (fun hcon => absurd hcon.1 (by omega))]

/-- C4 counterexample: the mass-shift token `-18.011` at the very start of
the sequence, immediately followed by its residue `E`, is NOT left
untouched — the code moves the residue in front of the token. -/
theorem modifyNTerm_claim_counterexample :
    modifyNTermAASpecificSequence ("-18.011EPEP".data) = "E-18.011PEP".data ∧
    "E-18.011PEP".data ≠ "-18.011EPEP".data :=
  ⟨by decide, by decide⟩

/-- C4 (amended): a mass-shift token at the sequence start immediately
followed by its associated residue has the residue moved to immediately
precede the token (shown for `-18.011`/`E` unconditionally and for
`-17.027`/`Q` when the `E` token does not fire first); a token preceded
anywhere earlier by an alphabetic character is left untouched by its pass
iteration; only the first matching token, checked in the fixed order `E`
then `Q`, is applied; when neither token's branch fires the input is
returned unchanged. -/
theorem modifyNTerm_start_token_amended :
    (∀ rest : List Char,
        modifyNTermAASpecificSequence ("-18.011".data ++ 'E' :: rest) =
          'E' :: ("-18.011".data ++ rest)) ∧
    (∀ rest : List Char,
        modNTermStep ("-17.027".data ++ 'Q' :: rest) ("-18.011".data) 'E' = none →
        modifyNTermAASpecificSequence ("-17.027".data ++ 'Q' :: rest) =
          'Q' :: ("-17.027".data ++ rest)) ∧
    (∀ (s tok : List Char) (res : Char) (f j : Nat),
        findSubstr tok s = some f → findFirstIdx isUpperAZ s = some j → j < f →
        modNTermStep s tok res = none) ∧
    (∀ (s r : List Char), modNTermStep s ("-18.011".data) 'E' = some r →
        modifyNTermAASpecificSequence s = r) ∧
    (∀ s : List Char, modNTermStep s ("-18.011".data) 'E' = none →
        modNTermStep s ("-17.027".data) 'Q' = none →
        modifyNTermAASpecificSequence s = s) := by
  refine ⟨?_, ?_, ?_, ?_, ?_⟩
  · intro rest
    have h := @modNTermStep_start ("-18.011".data) 'E' rest
      (by decide) (by decide) (by decide)
    simp only [modifyNTermAASpecificSequence, h]
  · intro rest hE
    have h := @modNTermStep_start ("-17.027".data) 'Q' rest
      (by decide) (by decide) (by decide)
    simp only [modifyNTermAASpecificSequence, hE, h]
  · exact fun s tok res f j hf hj hjf => modNTermStep_letter_before hf hj hjf
  · intro s r h
    simp [modifyNTermAASpecificSequence, h]
  · intro s h1 h2
    simp [modifyNTermAASpecificSequence, h1, h2]

/-- C4 witness: the amended theorem applied to concrete sequences — the
`E` token at the start of `-18.011EGG`, the `Q` token at the start of
`-17.027QAB`, the `E` token of `PP-18.011E` blocked by the leading letters,
the firing `E` branch on `-18.011EPP`, and the unchanged `PEP`. -/
theorem modifyNTerm_start_token_amended_witness :
    modifyNTermAASpecificSequence ("-18.011".data ++ 'E' :: "GG".data) =
      'E' :: ("-18.011".data ++ "GG".data) ∧
    modifyNTermAASpecificSequence ("-17.027".data ++ 'Q' :: "AB".data) =
      'Q' :: ("-17.027".data ++ "AB".data) ∧
    modNTermStep ("PP-18.011E".data) ("-18.011".data) 'E' = none ∧
    modifyNTermAASpecificSequence ("-18.011EPP".data) = "E-18.011PP".data ∧
    modifyNTermAASpecificSequence ("PEP".data) = "PEP".data :=
  ⟨modifyNTerm_start_token_amended.1 ("GG".data),
   modifyNTerm_start_token_amended.2.1 ("AB".data) (by decide),
   modifyNTerm_start_token_amended.2.2.1 ("PP-18.011E".data) ("-18.011".data) 'E' 2 0
     (by decide) (by decide) (by decide),
   modifyNTerm_start_token_amended.2.2.2.1 ("-18.011EPP".data) ("E-18.011PP".data)
     (by decide),
   modifyNTerm_start_token_amended.2.2.2.2 ("PEP".data) (by decide) (by decide)⟩

theorem ms_count_brackets : ∀ s : List Char, '[' ∉ s → ']' ∉ s →
    (msOut s).count '[' = (msOut s).count ']' ∧
    (msIn s).count '[' + 1 = (msIn s).count ']' := by
  intro s
  induction s with
  | nil => intro _ _; exact ⟨by decide, by decide⟩
  | cons c cs ih =>
    intro h1 h2
    have hc1 : c ≠ '[' := fun e => h1 (by simp [e])
    have hc2 : c ≠ ']' := fun e => h2 (by simp [e])
    have iht := ih (fun hd => h1 (by simp [hd])) (fun hd => h2 (by simp [hd]))
    constructor
    · by_cases hs : c = '+' ∨ c = '-'
      · simp only [msOut, if_pos hs]
        simp [List.count_cons, hc1.symm, hc2.symm]
        omega
      · simp only [msOut, if_neg hs]
        simp [List.count_cons, hc1.symm, hc2.symm, iht.1]
    · by_cases hs : isUpperAZ c = true
      · simp only [msIn, if_pos hs]
        simp [List.count_cons, hc1.symm, hc2.symm, iht.1]
      · simp only [msIn, if_neg hs]
        simp [List.count_cons, hc1.symm, hc2.symm]
        omega

theorem ms_okBrackets : ∀ s : List Char, '[' ∉ s → ']' ∉ s →
    okBrackets (msOut s) = true ∧ okBrackets (msIn s) = true := by
  intro s
  induction s with
  | nil => intro _ _; exact ⟨by decide, by decide⟩
  | cons c cs ih =>
    intro h1 h2
    have hc1 : c ≠ '[' := fun e => h1 (by simp [e])
    have iht := ih (fun hd => h1 (by simp [hd])) (fun hd => h2 (by simp [hd]))
    constructor
    · by_cases hs : c = '+' ∨ c = '-'
      · simp only [msOut, if_pos hs]
        simp [okBrackets, hc1, hs, iht.2]
      · simp only [msOut, if_neg hs]
        simp [okBrackets, hc1, iht.1]
    · by_cases hs : isUpperAZ c = true
      · simp only [msIn, if_pos hs]
        simp [okBrackets, hc1, iht.1]
      · simp only [msIn, if_neg hs]
        simp [okBrackets, hc1, iht.2]

/-- C8 counterexample: `M+1-5X` has no brackets and two signs, yet the
output `M[+1-5]X` contains a single bracketed segment — the `-` inside the
open segment does not give rise to a segment of its own, refuting the
one-segment-per-sign reading. -/
theorem modifySequence_claim_counterexample :
    modifySequence ("M+1-5X".data) = "M[+1-5]X".data ∧
    ("M[+1-5]X".data).count '[' = 1 ∧
    ("M+1-5X".data).count '+' + ("M+1-5X".data).count '-' = 2 ∧
    '[' ∉ "M+1-5X".data ∧ ']' ∉ "M+1-5X".data :=
  ⟨by decide, by decide, by decide, by decide, by decide⟩

/-- C8 (amended): for every input without `[` or `]`, the bracketing pass
emits as many `[` as `]`, and every `[` of the output immediately precedes
a `+` or `-` sign (the sign that opened it); signs encountered while a
segment is already open are absorbed into it rather than opening another,
and a segment still open at the end of the string is closed by a final
appended `]`. -/
theorem modifySequence_brackets_amended :
    ∀ s : List Char, '[' ∉ s → ']' ∉ s →
      (modifySequence s).count '[' = (modifySequence s).count ']' ∧
      okBrackets (modifySequence s) = true :=
  fun s h1 h2 => ⟨(ms_count_brackets s h1 h2).1, (ms_okBrackets s h1 h2).1⟩

/-- C8 witness: the amended theorem evaluated on `AC+12DE`. -/
theorem modifySequence_brackets_amended_witness :
    (modifySequence ("AC+12DE".data)).count '[' =
      (modifySequence ("AC+12DE".data)).count ']' ∧
    okBrackets (modifySequence ("AC+12DE".data)) = true :=
  modifySequence_brackets_amended ("AC+12DE".data) (by decide) (by decide)

theorem mem_insertAcc {a x : List Char} : ∀ {l : List (List Char)},
    a ∈ insertAcc x l ↔ a = x ∨ a ∈ l := by
  intro l
  induction l with
  | nil => simp [insertAcc]
  | cons b bs ih =>
    by_cases h1 : x < b
    · simp [insertAcc, h1]
    · by_cases h2 : x = b
      · subst h2
        simp only [insertAcc, if_neg h1, if_pos rfl]
        simp
      · simp only [insertAcc, if_neg h1, if_neg h2]
        simp [ih]
        tauto

theorem insertAcc_sorted {x : List Char} : ∀ {l : List (List Char)},
    l.Pairwise (· < ·) → (insertAcc x l).Pairwise (· < ·) := by
  intro l
  induction l with
  | nil => intro _; simp [insertAcc]
  | cons b bs ih =>
    intro hp
    obtain ⟨hb, hbs⟩ := List.pairwise_cons.mp hp
    by_cases h1 : x < b
    · simp only [insertAcc, if_pos h1]
      refine List.pairwise_cons.mpr ⟨?_, hp⟩
      intro y hy
      rcases List.mem_cons.mp hy with rfl | hybs
      · exact h1
      · exact lt_trans h1 (hb y hybs)
    · by_cases h2 : x = b
      · simp only [insertAcc, if_neg h1, if_pos h2]
        exact hp
      · simp only [insertAcc, if_neg h1, if_neg h2]
        refine List.pairwise_cons.mpr ⟨?_, ih hbs⟩
        intro y hy
        rcases mem_insertAcc.mp hy with rfl | hybs
        · rcases lt_or_gt_of_ne h2 with h | h
          · exact absurd h h1
          · exact h
        · exact hb y hybs

theorem lookupPep_setPep_self (n : Int) (v : PeptideIdentification) :
    ∀ l, lookupPep n (setPep n v l) = some v := by
  intro l
  induction l with
  | nil => simp [setPep, lookupPep]
  | cons p rest ih =>
    obtain ⟨k, w⟩ := p
    by_cases h1 : n = k
    · simp [setPep, h1, lookupPep]
    · by_cases h2 : n < k
      · simp [setPep, h1, h2, lookupPep]
      · simp [setPep, h1, h2, lookupPep, ih]

theorem lookupPep_setPep_ne {m n : Int} (h : m ≠ n) (v : PeptideIdentification) :
    ∀ l, lookupPep m (setPep n v l) = lookupPep m l := by
  intro l
  induction l with
  | nil => simp [setPep, lookupPep, h]
  | cons p rest ih =>
    obtain ⟨k, w⟩ := p
    by_cases h1 : n = k
    · subst h1
      simp [setPep, lookupPep, h]
    · by_cases h2 : n < k
      · simp [setPep, h1, h2, lookupPep, h]
      · simp [setPep, h1, h2, lookupPep, ih]

theorem mem_setPep {n : Int} {v : PeptideIdentification}
    {p : Int × PeptideIdentification} :
    ∀ {l}, p ∈ setPep n v l → p = (n, v) ∨ p ∈ l := by
  intro l
  induction l with
  | nil => simp [setPep]
  | cons q rest ih =>
    obtain ⟨k, w⟩ := q
    intro hm
    by_cases h1 : n = k
    · simp only [setPep, if_pos h1] at hm
      rcases List.mem_cons.mp hm with rfl | h
      · exact Or.inl rfl
      · exact Or.inr (List.mem_cons.mpr (Or.inr h))
    · by_cases h2 : n < k
      · simp only [setPep, if_neg h1, if_pos h2] at hm
        rcases List.mem_cons.mp hm with rfl | h
        · exact Or.inl rfl
        · exact Or.inr h
      · simp only [setPep, if_neg h1, if_neg h2] at hm
        rcases List.mem_cons.mp hm with rfl | h
        · exact Or.inr (List.mem_cons.mpr (Or.inl rfl))
        · rcases ih h with h' | h'
          · exact Or.inl h'
          · exact Or.inr (List.mem_cons.mpr (Or.inr h'))

theorem setPep_sorted {n : Int} {v : PeptideIdentification} :
    ∀ {l}, l.Pairwise (fun p q => p.1 < q.1) →
      (setPep n v l).Pairwise (fun p q => p.1 < q.1) := by
  intro l
  induction l with
  | nil => intro _; simp [setPep]
  | cons q rest ih =>
    obtain ⟨k, w⟩ := q
    intro hp
    obtain ⟨hb, hbs⟩ := List.pairwise_cons.mp hp
    by_cases h1 : n = k
    · subst h1
      simp only [setPep, if_pos rfl]
      exact List.pairwise_cons.mpr ⟨hb, hbs⟩
    · by_cases h2 : n < k
      · simp only [setPep, if_neg h1, if_pos h2]
        refine List.pairwise_cons.mpr ⟨?_, hp⟩
        intro y hy
        rcases List.mem_cons.mp hy with rfl | hybs
        · exact h2
        · exact lt_trans h2 (hb y hybs)
      · simp only [setPep, if_neg h1, if_neg h2]
        refine List.pairwise_cons.mpr ⟨?_, ih hbs⟩
        intro y hy
        rcases mem_setPep hy with rfl | hybs
        · rcases lt_or_gt_of_ne h1 with h | h
          · exact absurd h h2
          · exact h
        · exact hb y hybs

theorem lookupPep_mem {n : Int} {v : PeptideIdentification} :
    ∀ {l}, lookupPep n l = some v → (n, v) ∈ l := by
  intro l
  induction l with
  | nil => simp [lookupPep]
  | cons q rest ih =>
    obtain ⟨k, w⟩ := q
    intro hm
    by_cases h1 : n = k
    · subst h1
      simp [lookupPep] at hm
      subst hm
      exact List.mem_cons.mpr (Or.inl rfl)
    · simp only [lookupPep, if_neg h1] at hm
      exact List.mem_cons.mpr (Or.inr (ih hm))

theorem lookupPep_setPep_isSome {m n : Int} {v : PeptideIdentification} (l : List (Int × PeptideIdentification)) :
    (lookupPep m (setPep n v l)).isSome = true ↔
      m = n ∨ (lookupPep m l).isSome = true := by
  by_cases h : m = n
  · subst h
    simp [lookupPep_setPep_self]
  · simp [lookupPep_setPep_ne h, h]

theorem exceptBind_err {α β ε : Type} {e : ε} {f : α → Except ε β} :
    (Except.error e >>= f) = Except.error e := rfl

theorem exceptBind_ok {α β ε : Type} {a : α} {f : α → Except ε β} :
    (Except.ok a >>= f) = f a := rfl

theorem ingest_ok_cases {ident : List Char} {idx : List (List Char × List ℚ)}
    {st st' : AggState} {row : ResultRow}
    (h : ingest ident idx st row = Except.ok st') :
    st'.protAccessions = insertAcc row.protAccession st.protAccessions ∧
    ∃ n, parseScanNumber row.title row.scanField = Except.ok n ∧
      ((∃ rtv mzv,
          lookupPep n st.pepIds = none ∧
          (lookupRT idx row.title).get? 0 = some rtv ∧
          (lookupRT idx row.title).get? 1 = some mzv ∧
          st'.pepIds = setPep n
            ⟨rtv, mzv, n, "SpecEValue".data, false, ident,
             [⟨row.score, 0, row.charge, rewriteSequence row.rawSeq, [row.protAccession]⟩]⟩
            st.pepIds) ∨
       (∃ pi0, lookupPep n st.pepIds = some pi0 ∧
          st'.pepIds = setPep n
            { pi0 with hits := pi0.hits.map (fun h0 =>
                if h0.sequence = rewriteSequence row.rawSeq
                then addProteinAccession h0 row.protAccession else h0) }
            st.pepIds)) := by
  unfold ingest at h
  cases hscan : parseScanNumber row.title row.scanField with
  | error e =>
    rw [hscan] at h
    cases h
  | ok n =>
    rw [hscan] at h
    dsimp only at h
    cases hl : lookupPep n st.pepIds with
    | none =>
      rw [hl] at h
      dsimp only at h
      cases hg0 : (lookupRT idx row.title).get? 0 with
      | none =>
        rw [hg0] at h
        dsimp only at h
        cases h
      | some rtv =>
        rw [hg0] at h
        cases hg1 : (lookupRT idx row.title).get? 1 with
        | none =>
          rw [hg1] at h
          dsimp only at h
          cases h
        | some mzv =>
          rw [hg1] at h
          dsimp only at h
          injection h with h'
          subst h'
          exact ⟨rfl, n, rfl, Or.inl ⟨rtv, mzv, hl, rfl, rfl, rfl⟩⟩
    | some pi0 =>
      rw [hl] at h
      dsimp only at h
      injection h with h'
      subst h'
      exact ⟨rfl, n, rfl, Or.inr ⟨pi0, hl, rfl⟩⟩

theorem foldIngest_ok_inv (ident : List Char) (idx : List (List Char × List ℚ))
    (P : AggState → Prop)
    (hstep : ∀ st row st', P st → ingest ident idx st row = Except.ok st' → P st') :
    ∀ (rows : List ResultRow) (st0 st : AggState), P st0 →
      List.foldlM (ingest ident idx) st0 rows = Except.ok st → P st := by
  intro rows
  induction rows with
  | nil =>
    intro st0 st h0 h
    simp only [List.foldlM_nil] at h
    injection h with h'
    exact h' ▸ h0
  | cons r rs ih =>
    intro st0 st h0 h
    rw [List.foldlM_cons] at h
    cases hr : ingest ident idx st0 r with
    | error e =>
      rw [hr, exceptBind_err] at h
      cases h
    | ok st1 =>
      rw [hr, exceptBind_ok] at h
      exact ih st1 st (hstep st0 r st1 h0 hr) h

theorem foldIngest_acc_mem (ident : List Char) (idx : List (List Char × List ℚ)) :
    ∀ (rows : List ResultRow) (st0 st : AggState),
      List.foldlM (ingest ident idx) st0 rows = Except.ok st →
      ∀ a, a ∈ st.protAccessions ↔
        a ∈ st0.protAccessions ∨ ∃ r ∈ rows, r.protAccession = a := by
  intro rows
  induction rows with
  | nil =>
    intro st0 st h a
    simp only [List.foldlM_nil] at h
    injection h with h'
    subst h'
    simp
  | cons r rs ih =>
    intro st0 st h a
    rw [List.foldlM_cons] at h
    cases hr : ingest ident idx st0 r with
    | error e =>
      rw [hr, exceptBind_err] at h
      cases h
    | ok st1 =>
      rw [hr, exceptBind_ok] at h
      have hacc := (ingest_ok_cases hr).1
      rw [ih st1 st h a, hacc, mem_insertAcc]
      constructor
      · rintro ((rfl | h0) | ⟨rr, hrr, hra⟩)
        · exact Or.inr ⟨r, List.mem_cons_self r rs, rfl⟩
        · exact Or.inl h0
        · exact Or.inr ⟨rr, List.mem_cons_of_mem r hrr, hra⟩
      · rintro (h0 | ⟨rr, hrr, hra⟩)
        · exact Or.inl (Or.inr h0)
        · rcases List.mem_cons.mp hrr with rfl | hrr2
          · exact Or.inl (Or.inl hra.symm)
          · exact Or.inr ⟨rr, hrr2, hra⟩

theorem foldIngest_scan_isSome (ident : List Char) (idx : List (List Char × List ℚ)) :
    ∀ (rows : List ResultRow) (st0 st : AggState),
      List.foldlM (ingest ident idx) st0 rows = Except.ok st →
      ∀ n : Int, (lookupPep n st.pepIds).isSome = true ↔
        (lookupPep n st0.pepIds).isSome = true ∨
        ∃ r ∈ rows, parseScanNumber r.title r.scanField = Except.ok n := by
  intro rows
  induction rows with
  | nil =>
    intro st0 st h n
    simp only [List.foldlM_nil] at h
    injection h with h'
    subst h'
    simp
  | cons r rs ih =>
    intro st0 st h n
    rw [List.foldlM_cons] at h
    cases hr : ingest ident idx st0 r with
    | error e =>
      rw [hr, exceptBind_err] at h
      cases h
    | ok st1 =>
      rw [hr, exceptBind_ok] at h
      obtain ⟨-, m, hm, hcase⟩ := ingest_ok_cases hr
      have h1 : (lookupPep n st1.pepIds).isSome = true ↔
          n = m ∨ (lookupPep n st0.pepIds).isSome = true := by
        rcases hcase with ⟨rtv, mzv, _, _, _, hset⟩ | ⟨pi0, _, hset⟩ <;>
          rw [hset] <;> exact lookupPep_setPep_isSome _
      have h2 : parseScanNumber r.title r.scanField = Except.ok n ↔ n = m := by
        constructor
        · intro hn
          rw [hm] at hn
          injection hn with h'
          exact h'.symm
        · intro hn
          rw [hn]
          exact hm
      rw [ih st1 st h n, h1, List.exists_mem_cons_iff, h2]
      tauto

/-- The state invariant maintained by every ingestion step: the scan map
is sorted ascending by key, each stored identification carries its key as
scan number and exactly one hit, and the accession set is sorted. -/
def StInv (st : AggState) : Prop :=
  st.pepIds.Pairwise (fun p q => p.1 < q.1) ∧
  (∀ p ∈ st.pepIds, p.2.scanNumber = p.1) ∧
  (∀ p ∈ st.pepIds, p.2.hits.length = 1) ∧
  st.protAccessions.Pairwise (· < ·)

theorem stInv_init : StInv initState := by
  refine ⟨?_, ?_, ?_, ?_⟩ <;> simp [initState]

theorem ingest_stInv {ident : List Char} {idx : List (List Char × List ℚ)}
    {st st' : AggState} {row : ResultRow}
    (hinv : StInv st) (h : ingest ident idx st row = Except.ok st') : StInv st' := by
  obtain ⟨hsort, hkey, hone, haccsort⟩ := hinv
  obtain ⟨hacc, n, hscan, hcase⟩ := ingest_ok_cases h
  have haccsort' : st'.protAccessions.Pairwise (· < ·) := by
    rw [hacc]
    exact insertAcc_sorted haccsort
  rcases hcase with ⟨rtv, mzv, hl, hg0, hg1, hset⟩ | ⟨pi0, hl, hset⟩
  · refine ⟨?_, ?_, ?_, haccsort'⟩
    · rw [hset]
      exact setPep_sorted hsort
    · intro p hp
      rw [hset] at hp
      rcases mem_setPep hp with rfl | hmem
      · rfl
      · exact hkey p hmem
    · intro p hp
      rw [hset] at hp
      rcases mem_setPep hp with rfl | hmem
      · rfl
      · exact hone p hmem
  · have hpi0 : pi0.scanNumber = n := hkey (n, pi0) (lookupPep_mem hl)
    have hpi0len : pi0.hits.length = 1 := hone (n, pi0) (lookupPep_mem hl)
    refine ⟨?_, ?_, ?_, haccsort'⟩
    · rw [hset]
      exact setPep_sorted hsort
    · intro p hp
      rw [hset] at hp
      rcases mem_setPep hp with rfl | hmem
      · exact hpi0
      · exact hkey p hmem
    · intro p hp
      rw [hset] at hp
      rcases mem_setPep hp with rfl | hmem
      · simpa using hpi0len
      · exact hone p hmem

theorem runRows_stInv {ident : List Char} {idx : List (List Char × List ℚ)}
    {rows : List ResultRow} {st : AggState}
    (h : runRows ident idx rows = Except.ok st) : StInv st :=
  foldIngest_ok_inv ident idx StInv
    (fun _ _ _ hP hstep => ingest_stInv hP hstep) rows initState st stInv_init h

theorem insertHitByScore_length (h : PeptideHit) :
    ∀ l : List PeptideHit, (insertHitByScore h l).length = l.length + 1 := by
  intro l
  induction l with
  | nil => rfl
  | cons g gs ih =>
    by_cases hle : h.score ≤ g.score
    · simp [insertHitByScore, hle]
    · simp [insertHitByScore, hle, ih]

theorem sortHits_length : ∀ l : List PeptideHit, (sortHits l).length = l.length := by
  intro l
  induction l with
  | nil => rfl
  | cons g gs ih => simp [sortHits, insertHitByScore_length, ih]

/-- C7: after a successful run, the accession set is strictly sorted in
the lexicographic string order (hence duplicate-free and in a
deterministic total order), contains an accession exactly when some
ingested row carried it — including rows whose peptide hit was dropped on
a repeat scan — and the output protein list has exactly one protein hit
per accession, in that order. -/
theorem protein_evidence_output :
    ∀ (ident : List Char) (idx : List (List Char × List ℚ))
      (rows : List ResultRow) (st : AggState),
      runRows ident idx rows = Except.ok st →
      st.protAccessions.Pairwise (· < ·) ∧
      st.protAccessions.Nodup ∧
      (∀ a, a ∈ st.protAccessions ↔ ∃ r ∈ rows, r.protAccession = a) ∧
      (finalize st).proteinHits = st.protAccessions.map (fun a => ⟨a⟩) := by
  intro ident idx rows st h
  have hinv := runRows_stInv h
  refine ⟨hinv.2.2.2, ?_, ?_, rfl⟩
  · exact hinv.2.2.2.imp (fun hab => ne_of_lt hab)
  · intro a
    rw [foldIngest_acc_mem ident idx rows initState st h a]
    simp [initState]

/-- C7 witness: the theorem evaluated on the two-row run
`[exRow5, exRow3]` over the index `exIdx`. -/
theorem protein_evidence_output_witness :
    (runOk (runRows ("MS-GF+_w7".data) exIdx [exRow5, exRow3])).protAccessions.Pairwise
      (· < ·) ∧
    (runOk (runRows ("MS-GF+_w7".data) exIdx [exRow5, exRow3])).protAccessions.Nodup ∧
    (∀ a, a ∈ (runOk (runRows ("MS-GF+_w7".data) exIdx [exRow5, exRow3])).protAccessions ↔
      ∃ r ∈ [exRow5, exRow3], r.protAccession = a) ∧
    (finalize (runOk (runRows ("MS-GF+_w7".data) exIdx [exRow5, exRow3]))).proteinHits =
      (runOk (runRows ("MS-GF+_w7".data) exIdx [exRow5, exRow3])).protAccessions.map
        (fun a => ⟨a⟩) :=
  protein_evidence_output ("MS-GF+_w7".data) exIdx [exRow5, exRow3]
    (runOk (runRows ("MS-GF+_w7".data) exIdx [exRow5, exRow3])) rfl

/-- C2 counterexample: the rows arrive for scan 5 first and scan 3 second
(first-appearance order `[5, 3]`), yet the finalized identification list
comes out in ascending `std::map` key order `[3, 5]`. -/
theorem finalize_order_counterexample :
    (runRows ("MS-GF+_c2".data) exIdx [exRow5, exRow3]).map
        (fun st => (finalize st).peptideIds.map (fun pi => pi.scanNumber)) =
      Except.ok [3, 5] ∧
    exRow5.scanField = "5".data ∧ exRow3.scanField = "3".data ∧
    ([3, 5] : List Int) ≠ [5, 3] :=
  ⟨rfl, rfl, rfl, by decide⟩

/-- C2 (amended): after a successful run the scan map is strictly sorted
ascending by scan number, so the finalized peptide-identification list
contains exactly one identification per distinct scan number in ascending
numeric scan-number order (not first-appearance order), and a scan number
occurs exactly when some row derived it. -/
theorem finalize_scan_order_amended :
    ∀ (ident : List Char) (idx : List (List Char × List ℚ))
      (rows : List ResultRow) (st : AggState),
      runRows ident idx rows = Except.ok st →
      st.pepIds.Pairwise (fun p q => p.1 < q.1) ∧
      (finalize st).peptideIds.map (fun pi => pi.scanNumber) = st.pepIds.map Prod.fst ∧
      (∀ n : Int, (lookupPep n st.pepIds).isSome = true ↔
        ∃ r ∈ rows, parseScanNumber r.title r.scanField = Except.ok n) := by
  intro ident idx rows st h
  have hinv := runRows_stInv h
  refine ⟨hinv.1, ?_, ?_⟩
  · simp only [finalize, List.map_map]
    apply List.map_congr_left
    intro p hp
    simpa using hinv.2.1 p hp
  · intro n
    rw [foldIngest_scan_isSome ident idx rows initState st h n]
    simp [initState, lookupPep]

/-- C2 witness: the amended theorem evaluated on the two-row run
`[exRow5, exRow3]`. -/
theorem finalize_scan_order_amended_witness :
    (runOk (runRows ("MS-GF+_w2".data) exIdx [exRow5, exRow3])).pepIds.Pairwise
      (fun p q => p.1 < q.1) ∧
    (finalize (runOk (runRows ("MS-GF+_w2".data) exIdx [exRow5, exRow3]))).peptideIds.map
        (fun pi => pi.scanNumber) =
      (runOk (runRows ("MS-GF+_w2".data) exIdx [exRow5, exRow3])).pepIds.map Prod.fst ∧
    (∀ n : Int,
      (lookupPep n (runOk (runRows ("MS-GF+_w2".data) exIdx [exRow5, exRow3])).pepIds).isSome =
          true ↔
        ∃ r ∈ [exRow5, exRow3], parseScanNumber r.title r.scanField = Except.ok n) :=
  finalize_scan_order_amended ("MS-GF+_w2".data) exIdx [exRow5, exRow3]
    (runOk (runRows ("MS-GF+_w2".data) exIdx [exRow5, exRow3])) rfl

/-- C10: every entry of the scan-number map holds exactly one PeptideHit
after any successful run prefix; an ingestion step never changes the hit
count of an existing entry (a repeat row only merges an accession or
leaves the hits unchanged); hence every peptide identification in the
finalized output has exactly one hit. -/
theorem single_hit_invariant :
    ∀ (ident : List Char) (idx : List (List Char × List ℚ))
      (rows : List ResultRow) (st : AggState),
      runRows ident idx rows = Except.ok st →
      (∀ p ∈ st.pepIds, p.2.hits.length = 1) ∧
      (∀ (st0 : AggState) (r : ResultRow) (st1 : AggState) (n : Int)
          (pi0 : PeptideIdentification),
          ingest ident idx st0 r = Except.ok st1 →
          lookupPep n st0.pepIds = some pi0 →
          ∃ pi1, lookupPep n st1.pepIds = some pi1 ∧
            pi1.hits.length = pi0.hits.length) ∧
      (∀ pi ∈ (finalize st).peptideIds, pi.hits.length = 1) := by
  intro ident idx rows st h
  have hinv := runRows_stInv h
  refine ⟨hinv.2.2.1, ?_, ?_⟩
  · intro st0 r st1 n pi0 hing hl
    obtain ⟨-, m, -, hcase⟩ := ingest_ok_cases hing
    rcases hcase with ⟨rtv, mzv, hlm, -, -, hset⟩ | ⟨pi0m, hlm, hset⟩
    · by_cases hnm : n = m
      · subst hnm
        rw [hl] at hlm
        cases hlm
      · refine ⟨pi0, ?_, rfl⟩
        rw [hset, lookupPep_setPep_ne hnm]
        exact hl
    · by_cases hnm : n = m
      · subst hnm
        rw [hl] at hlm
        injection hlm with h'
        subst h'
        refine ⟨{ pi0 with hits := pi0.hits.map (fun h0 =>
            if h0.sequence = rewriteSequence r.rawSeq
            then addProteinAccession h0 r.protAccession else h0) }, ?_, ?_⟩
        · rw [hset]
          exact lookupPep_setPep_self n _ _
        · simp
      · refine ⟨pi0, ?_, rfl⟩
        rw [hset, lookupPep_setPep_ne hnm]
        exact hl
  · intro pi hpi
    simp only [finalize, List.mem_map] at hpi
    obtain ⟨p, hp, rfl⟩ := hpi
    simp [sortHits_length]
    exact hinv.2.2.1 p hp

/-- C10 witness: the theorem evaluated on the three-row run in which the
third row repeats scan 5. -/
theorem single_hit_invariant_witness :
    (∀ p ∈ (runOk (runRows ("MS-GF+_wa".data) exIdx [exRow5, exRow3, exRowP2])).pepIds,
      p.2.hits.length = 1) ∧
    (∀ (st0 : AggState) (r : ResultRow) (st1 : AggState) (n : Int)
        (pi0 : PeptideIdentification),
        ingest ("MS-GF+_wa".data) exIdx st0 r = Except.ok st1 →
        lookupPep n st0.pepIds = some pi0 →
        ∃ pi1, lookupPep n st1.pepIds = some pi1 ∧
          pi1.hits.length = pi0.hits.length) ∧
    (∀ pi ∈ (finalize (runOk
        (runRows ("MS-GF+_wa".data) exIdx [exRow5, exRow3, exRowP2]))).peptideIds,
      pi.hits.length = 1) :=
  single_hit_invariant ("MS-GF+_wa".data) exIdx [exRow5, exRow3, exRowP2]
    (runOk (runRows ("MS-GF+_wa".data) exIdx [exRow5, exRow3, exRowP2])) rfl

/-- C6: a row's scan number comes from the title suffix after the last `=`
when the scan field is empty or the `-1` sentinel, and from the scan field
itself otherwise; when neither derivation yields an integer the row fails
with the unparseable-scan-number error, which aborts the ingestion step. -/
theorem scan_number_derivation :
    (∀ title sf : List Char, (sf = [] ∨ sf = "-1".data) →
        parseScanNumber title sf =
          match (suffixAfterLast '=' title).bind toInt? with
          | some n => Except.ok n
          | none => Except.error RowError.unparseableScanNumber) ∧
    (∀ title sf : List Char, sf ≠ [] → sf ≠ "-1".data →
        parseScanNumber title sf =
          match toInt? sf with
          | some n => Except.ok n
          | none => Except.error RowError.unparseableScanNumber) ∧
    (∀ title sf : List Char, (suffixAfterLast '=' title).bind toInt? = none →
        toInt? sf = none →
        parseScanNumber title sf = Except.error RowError.unparseableScanNumber) ∧
    (∀ (ident : List Char) (idx : List (List Char × List ℚ)) (st : AggState)
        (row : ResultRow),
        parseScanNumber row.title row.scanField =
          Except.error RowError.unparseableScanNumber →
        ingest ident idx st row = Except.error RowError.unparseableScanNumber) := by
  refine ⟨?_, ?_, ?_, ?_⟩
  · intro title sf hsf
    rw [parseScanNumber, if_pos hsf]
  · intro title sf h1 h2
    rw [parseScanNumber, if_neg (by tauto)]
  · intro title sf ht hf
    by_cases hsf : sf = [] ∨ sf = "-1".data
    · rw [parseScanNumber, if_pos hsf, ht]
    · rw [parseScanNumber, if_neg hsf, hf]
  · intro ident idx st row h
    unfold ingest
    rw [h]

/-- C6 witness: the derivation evaluated on a title-suffix row, a direct
row, a row where both derivations fail, and a full ingestion step aborting
on the latter. -/
theorem scan_number_derivation_witness :
    parseScanNumber ("x scan=5".data) [] =
      (match (suffixAfterLast '=' ("x scan=5".data)).bind toInt? with
        | some n => Except.ok n
        | none => Except.error RowError.unparseableScanNumber) ∧
    parseScanNumber ("t".data) ("7".data) =
      (match toInt? ("7".data) with
        | some n => Except.ok n
        | none => Except.error RowError.unparseableScanNumber) ∧
    parseScanNumber ("x".data) ("abc".data) =
      Except.error RowError.unparseableScanNumber ∧
    ingest ("MS-GF+_w6".data) exIdx initState exRowBad =
      Except.error RowError.unparseableScanNumber :=
  ⟨scan_number_derivation.1 ("x scan=5".data) [] (Or.inl rfl),
   scan_number_derivation.2.1 ("t".data) ("7".data) (by decide) (by decide),
   scan_number_derivation.2.2.1 ("x".data) ("abc".data) rfl rfl,
   scan_number_derivation.2.2.2 ("MS-GF+_w6".data) exIdx initState exRowBad rfl⟩

/-- C5: two rows with the same scan number and the same rewritten
annotated sequence but different protein accessions produce exactly one
PeptideHit for that scan, whose accession set contains both accessions
with no duplicate. -/
theorem merge_accessions_same_scan :
    ∀ (ident : List Char) (idx : List (List Char × List ℚ))
      (r1 r2 : ResultRow) (n : Int) (rtv mzv : ℚ) (rest : List ℚ),
      parseScanNumber r1.title r1.scanField = Except.ok n →
      parseScanNumber r2.title r2.scanField = Except.ok n →
      rewriteSequence r1.rawSeq = rewriteSequence r2.rawSeq →
      r1.protAccession ≠ r2.protAccession →
      lookupRT idx r1.title = rtv :: mzv :: rest →
      ∃ (st : AggState) (pi : PeptideIdentification) (h : PeptideHit),
        runRows ident idx [r1, r2] = Except.ok st ∧
        st.pepIds = [(n, pi)] ∧
        pi.hits = [h] ∧
        h.proteinAccessions = [r1.protAccession, r2.protAccession] ∧
        h.proteinAccessions.Nodup ∧
        h.sequence = rewriteSequence r1.rawSeq := by
  intro ident idx r1 r2 n rtv mzv rest hp1 hp2 hseq hacc hidx
  have e1 : ingest ident idx initState r1 = Except.ok
      ⟨[(n, ⟨rtv, mzv, n, "SpecEValue".data, false, ident,
        [⟨r1.score, 0, r1.charge, rewriteSequence r1.rawSeq, [r1.protAccession]⟩]⟩)],
       [r1.protAccession]⟩ := by
    unfold ingest
    rw [hp1]
    dsimp only
    rw [show lookupPep n initState.pepIds = none from rfl]
    dsimp only
    rw [hidx]
    rfl
  have e2 : ingest ident idx
      ⟨[(n, ⟨rtv, mzv, n, "SpecEValue".data, false, ident,
        [⟨r1.score, 0, r1.charge, rewriteSequence r1.rawSeq, [r1.protAccession]⟩]⟩)],
       [r1.protAccession]⟩ r2 = Except.ok
      ⟨[(n, ⟨rtv, mzv, n, "SpecEValue".data, false, ident,
        [⟨r1.score, 0, r1.charge, rewriteSequence r1.rawSeq,
          [r1.protAccession, r2.protAccession]⟩]⟩)],
       insertAcc r2.protAccession [r1.protAccession]⟩ := by
    have hne : ¬(r2.protAccession = r1.protAccession) := fun e => hacc e.symm
    unfold ingest
    rw [hp2]
    dsimp only
    rw [show lookupPep n [(n, (⟨rtv, mzv, n, "SpecEValue".data, false, ident,
        [⟨r1.score, 0, r1.charge, rewriteSequence r1.rawSeq, [r1.protAccession]⟩]⟩ :
        PeptideIdentification))] =
      some ⟨rtv, mzv, n, "SpecEValue".data, false, ident,
        [⟨r1.score, 0, r1.charge, rewriteSequence r1.rawSeq, [r1.protAccession]⟩]⟩ from by
      simp [lookupPep]]
    dsimp only
    simp [setPep, addProteinAccession, hseq, hne]
  refine ⟨⟨[(n, ⟨rtv, mzv, n, "SpecEValue".data, false, ident,
      [⟨r1.score, 0, r1.charge, rewriteSequence r1.rawSeq,
        [r1.protAccession, r2.protAccession]⟩]⟩)],
     insertAcc r2.protAccession [r1.protAccession]⟩,
    ⟨rtv, mzv, n, "SpecEValue".data, false, ident,
      [⟨r1.score, 0, r1.charge, rewriteSequence r1.rawSeq,
        [r1.protAccession, r2.protAccession]⟩]⟩,
    ⟨r1.score, 0, r1.charge, rewriteSequence r1.rawSeq,
      [r1.protAccession, r2.protAccession]⟩,
    ?_, rfl, rfl, rfl, ?_, rfl⟩
  · unfold runRows
    rw [List.foldlM_cons, e1, exceptBind_ok, List.foldlM_cons, e2, exceptBind_ok,
      List.foldlM_nil]
    rfl
  · simp [hacc]

/-- C5 witness: the theorem evaluated on the concrete rows `exRow5` and
`exRowP2` (same scan 5, same sequence, accessions `P1` and `P2`). -/
theorem merge_accessions_same_scan_witness :
    ∃ (st : AggState) (pi : PeptideIdentification) (h : PeptideHit),
      runRows ("MS-GF+_w5".data) exIdx [exRow5, exRowP2] = Except.ok st ∧
      st.pepIds = [(5, pi)] ∧
      pi.hits = [h] ∧
      h.proteinAccessions = [exRow5.protAccession, exRowP2.protAccession] ∧
      h.proteinAccessions.Nodup ∧
      h.sequence = rewriteSequence exRow5.rawSeq :=
  merge_accessions_same_scan ("MS-GF+_w5".data) exIdx exRow5 exRowP2 5 100 500 []
    rfl rfl rfl (by decide) rfl
